import Mathlib

/-!
Verification of the on-call schedule generator (`src/index.js`).

The source manipulates JavaScript `Date` values; every date is an absolute
instant measured in integer milliseconds since the Unix epoch, so the
embedding uses `Int` for instants and durations.  JavaScript's `%` on
integers is truncating remainder, embedded as `Int.tmod`; `Math.floor` of an
integer quotient is flooring division, embedded as `Int.fdiv`.
`Array.prototype.sort` is a stable sort, embedded as `List.mergeSort`.
The `throw` in `generateBaseSchedule` is embedded by returning
`Except.error`.  Indexing `users[i]` past the end of the array yields
JavaScript `undefined`; this is embedded as the placeholder string
"undefined" via `Option.getD` (it only arises when the user list is empty).
-/

namespace OnCall

/-- A working-form shift assignment (`WorkingScheduleElement` in the source):
a user together with a half-open interval `[start_at, end_at)` in epoch
milliseconds. Overrides are values of the same shape. -/
structure Shift where
  user : String
  start_at : Int
  end_at : Int
deriving DecidableEq, Repr

/-- The rotation configuration (`ScheduleConfig` in the source).
`handover_start_ms` is the parsed `handover_start_at` instant. -/
structure ScheduleConfig where
  users : List String
  handover_start_ms : Int
  handover_interval_days : Int
deriving DecidableEq, Repr

/-- Milliseconds per day: the factor `24 * 60 * 60 * 1000` in the source. -/
def msPerDay : Int := 86400000

/-- The `while (current_shift_start_ms < until.getTime())` loop of
`generateBaseSchedule`: emit a shift of length `intervalMs` starting at
`startMs` for user `users[idx]`, then advance by one interval and one user.
The `0 < intervalMs` conjunct is the loop's termination guarantee; the
caller has already checked it. -/
def genLoop (users : List String) (intervalMs untilMs : Int) (startMs : Int) (idx : Nat) :
    List Shift :=
  if h : 0 < intervalMs ∧ startMs < untilMs then
    { user := (users.get? idx).getD "undefined",
      start_at := startMs, end_at := startMs + intervalMs } ::
      genLoop users intervalMs untilMs (startMs + intervalMs) ((idx + 1) % users.length)
  else
    []
termination_by (untilMs - startMs).toNat
decreasing_by omega

/-- `generateBaseSchedule(config, from, until)` from the source: throws when
`interval_ms <= 0`, otherwise floors `(from - handover_start)` to a whole
number of intervals, normalises the (possibly negative) interval count to a
user index with `((intervals_passed % num_users) + num_users) % num_users`
(JavaScript truncating `%`, hence `Int.tmod`), and runs the generation
loop. -/
def generateBaseSchedule (config : ScheduleConfig) (fromMs untilMs : Int) :
    Except String (List Shift) :=
  let num_users : Int := config.users.length
  let interval_ms : Int := config.handover_interval_days * msPerDay
  if interval_ms ≤ 0 then
    Except.error "handover_interval_days must be greater than 0"
  else
    let elapsed_ms := fromMs - config.handover_start_ms
    let intervals_passed := elapsed_ms.fdiv interval_ms
    let current_shift_start_ms := config.handover_start_ms + intervals_passed * interval_ms
    let current_user_index := (((intervals_passed.tmod num_users) + num_users).tmod num_users).toNat
    Except.ok (genLoop config.users interval_ms untilMs current_shift_start_ms current_user_index)

/-- The body of the inner `for (const shift of workingSchedule)` loop of
`applyOverrides`: a shift with no overlap passes through; an overlapping
shift is replaced by its "before" and/or "after" remnants. -/
def splitShift (ov shift : Shift) : List Shift :=
  if ov.start_at < shift.end_at ∧ ov.end_at > shift.start_at then
    (if shift.start_at < ov.start_at then
      [{ user := shift.user, start_at := shift.start_at, end_at := ov.start_at }]
    else []) ++
    (if shift.end_at > ov.end_at then
      [{ user := shift.user, start_at := ov.end_at, end_at := shift.end_at }]
    else [])
  else
    [shift]

/-- The comparator `(a, b) => a.start_at - b.start_at` used by the source's
`Array.prototype.sort` calls (a stable ascending sort by start time). -/
def startLe (a b : Shift) : Bool := a.start_at ≤ b.start_at

/-- A stable sort by start time, the effect of
`.sort((a, b) => a.start_at.getTime() - b.start_at.getTime())`. -/
def sortByStart (l : List Shift) : List Shift := l.mergeSort startLe

/-- One iteration of the outer `for (const override of sortedOverrides)`
loop of `applyOverrides`: split every shift around the override, append the
override itself, and re-sort by start time. -/
def applyOverride (workingSchedule : List Shift) (ov : Shift) : List Shift :=
  sortByStart (workingSchedule.flatMap (splitShift ov) ++ [ov])

/-- `applyOverrides(baseSchedule, parsedOverrides)` from the source: sort the
overrides by start time, then fold each into the working schedule. -/
def applyOverrides (baseSchedule parsedOverrides : List Shift) : List Shift :=
  (sortByStart parsedOverrides).foldl applyOverride baseSchedule

/-- The per-shift body of `truncateAndFilterSchedule`: `none` when the shift
has no overlap with the window or the clipped interval is empty, otherwise
the shift clipped to `[max(start, from), min(end, until))`. -/
def clipShift (fromMs untilMs : Int) (shift : Shift) : Option Shift :=
  if shift.start_at < untilMs ∧ shift.end_at > fromMs then
    if max shift.start_at fromMs < min shift.end_at untilMs then
      some { user := shift.user, start_at := max shift.start_at fromMs,
             end_at := min shift.end_at untilMs }
    else none
  else none

/-- `truncateAndFilterSchedule` before its `dateIso` formatting step: the
surviving, clipped shifts still in millisecond form. -/
def truncateAndFilterMs (schedule : List Shift) (fromMs untilMs : Int) : List Shift :=
  schedule.filterMap (clipShift fromMs untilMs)

/-- The decimal digit character for `n % 10`. -/
def digitChar (n : Nat) : Char := Char.ofNat (48 + n % 10)

/-- Two-digit zero-padded decimal rendering of `n < 100`. -/
def pad2 (n : Nat) : List Char := [digitChar (n / 10), digitChar n]

/-- Four-digit zero-padded decimal rendering of `n < 10000`. -/
def pad4 (n : Nat) : List Char :=
  [digitChar (n / 1000), digitChar (n / 100), digitChar (n / 10), digitChar n]

/-- Proleptic-Gregorian civil date (year, month, day) of a day number
(days since 1970-01-01), as used by `Date.prototype.toISOString`. -/
def civilFromDays (dayNumber : Int) : Int × Nat × Nat :=
  let z := dayNumber + 719468
  let era := z.fdiv 146097
  let doe := (z - era * 146097).toNat
  let yoe := (doe - doe / 1460 + doe / 36524 - doe / 146096) / 365
  let y : Int := (yoe : Int) + era * 400
  let doy := doe - (365 * yoe + yoe / 4 - yoe / 100)
  let mp := (5 * doy + 2) / 153
  let d := doy - (153 * mp + 2) / 5 + 1
  let m := if mp < 10 then mp + 3 else mp - 9
  (if m ≤ 2 then y + 1 else y, m, d)

/-- The character sequence produced by `dateIso` in the source:
`d.toISOString()` truncated at the `'.'` with `"Z"` appended, i.e. the UTC
civil representation of the instant floored to whole seconds.  This models
`toISOString` for instants whose proleptic-Gregorian year lies in
`0..9999`; outside that range `toISOString` switches to an expanded
`±YYYYYY` year form that is not modelled. -/
def dateIsoChars (ms : Int) : List Char :=
  let secs := ms.fdiv 1000
  let days := secs.fdiv 86400
  let sod := (secs - days * 86400).toNat
  let ymd := civilFromDays days
  pad4 ymd.1.toNat ++ [Char.ofNat 45] ++ pad2 ymd.2.1 ++ [Char.ofNat 45] ++ pad2 ymd.2.2 ++
    [Char.ofNat 84] ++ pad2 (sod / 3600) ++ [Char.ofNat 58] ++ pad2 (sod % 3600 / 60) ++
    [Char.ofNat 58] ++ pad2 (sod % 60) ++ [Char.ofNat 90]

/-- `dateIso(d)` from the source, on the instant in epoch milliseconds. -/
def dateIso (ms : Int) : String := String.mk (dateIsoChars ms)

/-- An output-form shift assignment (`ScheduleElement` in the source):
boundaries formatted as second-truncated UTC timestamp strings. -/
structure OutShift where
  user : String
  start_at : String
  end_at : String
deriving DecidableEq, Repr

/-- `truncateAndFilterSchedule(schedule, from, until)` from the source. -/
def truncateAndFilterSchedule (schedule : List Shift) (fromMs untilMs : Int) : List OutShift :=
  schedule.filterMap (fun shift =>
    if shift.start_at < untilMs ∧ shift.end_at > fromMs then
      let truncated_start := max shift.start_at fromMs
      let truncated_end := min shift.end_at untilMs
      if truncated_start < truncated_end then
        some { user := shift.user,
               start_at := dateIso truncated_start, end_at := dateIso truncated_end }
      else none
    else none)

/-- The formatting step applied to each surviving shift by
`truncateAndFilterSchedule`. -/
def outShiftOf (s : Shift) : OutShift :=
  { user := s.user, start_at := dateIso s.start_at, end_at := dateIso s.end_at }

/-- `makeSchedule` up to (but not including) the final `dateIso` formatting:
generate the base schedule, apply the overrides, truncate to the window.
The source's parsing of override timestamp strings into `Date`s is the
identity on the underlying instants and is not modelled. -/
def makeScheduleMs (config : ScheduleConfig) (overrides : List Shift) (fromMs untilMs : Int) :
    Except String (List Shift) :=
  match generateBaseSchedule config fromMs untilMs with
  | Except.error e => Except.error e
  | Except.ok base =>
      Except.ok (truncateAndFilterMs (applyOverrides base overrides) fromMs untilMs)

/-- `makeSchedule(config, overrides, fromDate, untilDate)` from the source
(with overrides already parsed to instants). -/
def makeSchedule (config : ScheduleConfig) (overrides : List Shift) (fromMs untilMs : Int) :
    Except String (List OutShift) :=
  match generateBaseSchedule config fromMs untilMs with
  | Except.error e => Except.error e
  | Except.ok base =>
      Except.ok (truncateAndFilterSchedule (applyOverrides base overrides) fromMs untilMs)

/-- The users a schedule assigns to the instant `t`: one entry per shift
whose half-open interval contains `t`.  A schedule with neither gaps nor
overlaps at `t` yields a singleton. -/
def usersAt (schedule : List Shift) (t : Int) : List String :=
  schedule.filterMap (fun s =>
    if s.start_at ≤ t ∧ t < s.end_at then some s.user else none)

/-- The half-open interval overlap test
`(ov_start < shift_end) && (ov_end > shift_start)` used by the source. -/
def overlaps (a b : Shift) : Prop := a.start_at < b.end_at ∧ a.end_at > b.start_at

instance : DecidableRel overlaps := fun a b =>
  inferInstanceAs (Decidable (a.start_at < b.end_at ∧ a.end_at > b.start_at))

/-- ASCII decimal digit test. -/
def isAsciiDigit (c : Char) : Bool := 48 ≤ c.toNat && c.toNat ≤ 57

/-- Recognises exactly the strings of the form `YYYY-MM-DDTHH:MM:SSZ`
(four digits, `-`, two digits, `-`, two digits, `T`, two digits, `:`, two
digits, `:`, two digits, `Z`). -/
def isoShape (s : String) : Bool :=
  match s.data with
  | [y1, y2, y3, y4, h1, m1, m2, h2, d1, d2, tc, o1, o2, c1, n1, n2, c2, e1, e2, zc] =>
      isAsciiDigit y1 && isAsciiDigit y2 && isAsciiDigit y3 && isAsciiDigit y4 &&
      (h1 == Char.ofNat 45) && isAsciiDigit m1 && isAsciiDigit m2 &&
      (h2 == Char.ofNat 45) && isAsciiDigit d1 && isAsciiDigit d2 &&
      (tc == Char.ofNat 84) && isAsciiDigit o1 && isAsciiDigit o2 &&
      (c1 == Char.ofNat 58) && isAsciiDigit n1 && isAsciiDigit n2 &&
      (c2 == Char.ofNat 58) && isAsciiDigit e1 && isAsciiDigit e2 &&
      (zc == Char.ofNat 90)
  | _ => false

/-! ### Lemmas about the generation loop -/

theorem genLoop_ne_nil {users : List String} {i u s : Int} {idx : Nat}
    (h : 0 < i ∧ s < u) : genLoop users i u s idx ≠ [] := by
  rw [genLoop, dif_pos h]
  simp

theorem head?_genLoop_start (users : List String) (i u s : Int) (idx : Nat) :
    ∀ x ∈ (genLoop users i u s idx).head?, x.start_at = s := by
  rw [genLoop]
  split
  · simp
  · simp

theorem mem_genLoop (users : List String) (i u : Int) (s : Int) (idx : Nat) :
    ∀ x ∈ genLoop users i u s idx,
      s ≤ x.start_at ∧ x.end_at = x.start_at + i ∧ x.start_at < u ∧
        ∃ k : Nat, x.start_at = s + (k : Int) * i := by
  induction s, idx using genLoop.induct with
  | users => exact users
  | intervalMs => exact i
  | untilMs => exact u
  | case1 s idx h ih =>
    rw [genLoop, dif_pos h]
    simp only [List.mem_cons]
    rintro x (rfl | hx)
    · exact ⟨le_refl _, rfl, h.2, 0, by ring⟩
    · obtain ⟨h1, h2, h3, k, hk⟩ := ih x hx
      refine ⟨by omega, h2, h3, k + 1, ?_⟩
      have hcast : ((k : Int) + 1) * i = (k : Int) * i + i := by ring
      push_cast
      linarith
  | case2 s idx h =>
    rw [genLoop, dif_neg h]
    simp

theorem chain'_genLoop (users : List String) (i u : Int) (s : Int) (idx : Nat) :
    List.Chain' (fun a b => a.end_at = b.start_at) (genLoop users i u s idx) := by
  induction s, idx using genLoop.induct with
  | users => exact users
  | intervalMs => exact i
  | untilMs => exact u
  | case1 s idx h ih =>
    rw [genLoop, dif_pos h]
    refine List.Chain'.cons' ih ?_
    intro b hb
    have hb' := head?_genLoop_start users i u (s + i) ((idx + 1) % users.length) b hb
    simp [hb']
  | case2 s idx h =>
    rw [genLoop, dif_neg h]
    exact List.chain'_nil

theorem pairwise_genLoop (users : List String) (i u : Int) (s : Int) (idx : Nat) :
    List.Pairwise (fun a b => a.start_at < b.start_at) (genLoop users i u s idx) := by
  induction s, idx using genLoop.induct with
  | users => exact users
  | intervalMs => exact i
  | untilMs => exact u
  | case1 s idx h ih =>
    rw [genLoop, dif_pos h]
    refine List.Pairwise.cons ?_ ih
    intro b hb
    have hb' := mem_genLoop users i u (s + i) ((idx + 1) % users.length) b hb
    simp only []
    omega
  | case2 s idx h =>
    rw [genLoop, dif_neg h]
    exact List.Pairwise.nil

theorem getLast?_genLoop (users : List String) (i u : Int) (s : Int) (idx : Nat) :
    ∀ x, (genLoop users i u s idx).getLast? = some x → u ≤ x.end_at := by
  induction s, idx using genLoop.induct with
  | users => exact users
  | intervalMs => exact i
  | untilMs => exact u
  | case1 s idx h ih =>
    rw [genLoop, dif_pos h]
    intro x hx
    cases hg : genLoop users i u (s + i) ((idx + 1) % users.length) with
    | nil =>
        rw [hg] at hx
        simp only [List.getLast?_singleton, Option.some.injEq] at hx
        subst hx
        by_contra hcon
        exact genLoop_ne_nil ⟨h.1, by simp at hcon; omega⟩ hg
    | cons b l =>
        rw [hg, List.getLast?_cons_cons] at hx
        exact ih x (by rw [hg]; exact hx)
  | case2 s idx h =>
    rw [genLoop, dif_neg h]
    intro x hx
    simp at hx

theorem get?_genLoop (users : List String) (i u : Int) (s : Int) (idx : Nat) :
    ∀ j x, (idx < users.length ∨ users.length = 0) →
      (genLoop users i u s idx).get? j = some x →
      x.user = (users.get? ((idx + j) % users.length)).getD "undefined" ∧
      x.start_at = s + (j : Int) * i ∧ x.end_at = s + ((j : Int) + 1) * i := by
  induction s, idx using genLoop.induct with
  | users => exact users
  | intervalMs => exact i
  | untilMs => exact u
  | case1 s idx h ih =>
    rw [genLoop, dif_pos h]
    intro j x hidx hx
    cases j with
    | zero =>
        simp only [List.get?_cons_zero, Option.some.injEq] at hx
        subst hx
        refine ⟨?_, by simp, by ring_nf⟩
        rcases hidx with hlt | h0
        · rw [Nat.add_zero, Nat.mod_eq_of_lt hlt]
        · simp [h0]
    | succ j =>
        simp only [List.get?_cons_succ] at hx
        have hidx' : (idx + 1) % users.length < users.length ∨ users.length = 0 := by
          rcases hidx with hlt | h0
          · exact Or.inl (Nat.mod_lt _ (by omega))
          · exact Or.inr h0
        obtain ⟨hu, hs, he⟩ := ih j x hidx' hx
        refine ⟨?_, ?_, ?_⟩
        · rw [hu, Nat.mod_add_mod]
          have harg : idx + 1 + j = idx + (j + 1) := by omega
          rw [harg]
        · rw [hs]; push_cast; ring
        · rw [he]; push_cast; ring
  | case2 s idx h =>
    intro j x hidx hx
    rw [genLoop, dif_neg h] at hx
    simp at hx

/-! ### Pointwise assignment lemmas -/

theorem usersAt_nil (t : Int) : usersAt [] t = [] := rfl

theorem usersAt_cons (x : Shift) (S : List Shift) (t : Int) :
    usersAt (x :: S) t =
      (if x.start_at ≤ t ∧ t < x.end_at then [x.user] else []) ++ usersAt S t := by
  rw [usersAt, List.filterMap_cons]
  split
  · rename_i hsplit
    rw [if_neg]
    · rfl
    · intro hc
      rw [if_pos hc] at hsplit
      exact Option.noConfusion hsplit
  · rename_i v hsplit
    split at hsplit
    · rename_i hc
      rw [if_pos hc]
      cases hsplit
      rfl
    · exact Option.noConfusion hsplit

theorem usersAt_append (S T : List Shift) (t : Int) :
    usersAt (S ++ T) t = usersAt S t ++ usersAt T t :=
  List.filterMap_append S T _

theorem usersAt_perm {S T : List Shift} (h : S.Perm T) (t : Int) :
    (usersAt S t).Perm (usersAt T t) :=
  List.Perm.filterMap _ h

theorem usersAt_sortByStart (S : List Shift) (t : Int) :
    (usersAt (sortByStart S) t).Perm (usersAt S t) :=
  usersAt_perm (List.mergeSort_perm S startLe) t

theorem usersAt_eq_nil {S : List Shift} {t : Int}
    (h : ∀ x ∈ S, ¬(x.start_at ≤ t ∧ t < x.end_at)) : usersAt S t = [] := by
  induction S with
  | nil => rfl
  | cons a S ih =>
      rw [usersAt_cons, if_neg (h a (by simp))]
      exact ih fun x hx => h x (by simp [hx])

theorem usersAt_genLoop_ne_nil (users : List String) {i u : Int} (t : Int)
    (hi : 0 < i) (htu : t < u) :
    ∀ s idx, s ≤ t → usersAt (genLoop users i u s idx) t ≠ [] := by
  intro s idx
  induction s, idx using genLoop.induct with
  | users => exact users
  | intervalMs => exact i
  | untilMs => exact u
  | case1 s idx h ih =>
    intro hst
    rw [genLoop, dif_pos h, usersAt_cons]
    by_cases hc : t < s + i
    · rw [if_pos ⟨hst, hc⟩]
      simp
    · rw [if_neg (by simp; omega)]
      simpa using ih (by omega)
  | case2 s idx h =>
    intro hst
    exfalso
    omega

theorem usersAt_genLoop_length_le (users : List String) (i u : Int) (t : Int) :
    ∀ s idx, (usersAt (genLoop users i u s idx) t).length ≤ 1 := by
  intro s idx
  induction s, idx using genLoop.induct with
  | users => exact users
  | intervalMs => exact i
  | untilMs => exact u
  | case1 s idx h ih =>
    rw [genLoop, dif_pos h, usersAt_cons]
    by_cases hc : s ≤ t ∧ t < s + i
    · rw [if_pos hc]
      have htail : usersAt (genLoop users i u (s + i) ((idx + 1) % users.length)) t = [] := by
        refine usersAt_eq_nil fun x hx => ?_
        have := mem_genLoop users i u (s + i) ((idx + 1) % users.length) x hx
        omega
      rw [htail]
      simp
    · rw [if_neg hc]
      simpa using ih
  | case2 s idx h =>
    rw [genLoop, dif_neg h]
    simp [usersAt_nil]

theorem usersAt_splitShift_inside {ov : Shift} {t : Int} (s : Shift)
    (h1 : ov.start_at ≤ t) (h2 : t < ov.end_at) :
    usersAt (splitShift ov s) t = [] := by
  refine usersAt_eq_nil fun x hx => ?_
  rw [splitShift] at hx
  split at hx
  · simp only [List.mem_append] at hx
    rcases hx with hx | hx
    · split at hx
      · simp only [List.mem_singleton] at hx
        subst hx
        dsimp only
        omega
      · simp at hx
    · split at hx
      · simp only [List.mem_singleton] at hx
        subst hx
        dsimp only
        omega
      · simp at hx
  · rename_i hov
    simp only [List.mem_singleton] at hx
    subst hx
    intro hc
    exact hov ⟨by omega, by omega⟩

theorem usersAt_single (x : Shift) (t : Int) :
    usersAt [x] t = if x.start_at ≤ t ∧ t < x.end_at then [x.user] else [] := by
  rw [usersAt_cons, usersAt_nil, List.append_nil]

theorem usersAt_splitShift_outside {ov : Shift} {t : Int} (s : Shift)
    (hout : t < ov.start_at ∨ ov.end_at ≤ t) (hwf : ov.start_at ≤ ov.end_at) :
    usersAt (splitShift ov s) t = usersAt [s] t := by
  rw [splitShift]
  split
  · rename_i hov
    rw [usersAt_append]
    split_ifs with hb ha ha <;>
      simp only [usersAt_single, usersAt_nil, List.append_nil, List.nil_append] <;>
      split_ifs <;>
      first
        | rfl
        | (exfalso; omega)
  · rfl

theorem usersAt_flatMap_splitShift_inside {ov : Shift} {t : Int} (S : List Shift)
    (h1 : ov.start_at ≤ t) (h2 : t < ov.end_at) :
    usersAt (S.flatMap (splitShift ov)) t = [] := by
  induction S with
  | nil => rfl
  | cons a S ih =>
      rw [List.flatMap_cons, usersAt_append, usersAt_splitShift_inside a h1 h2, ih]
      rfl

theorem usersAt_applyOverride_inside {ov : Shift} {t : Int} (S : List Shift)
    (h1 : ov.start_at ≤ t) (h2 : t < ov.end_at) :
    usersAt (applyOverride S ov) t = [ov.user] := by
  rw [applyOverride]
  have hperm := usersAt_sortByStart (S.flatMap (splitShift ov) ++ [ov]) t
  rw [usersAt_append, usersAt_flatMap_splitShift_inside S h1 h2, List.nil_append,
    usersAt_single, if_pos ⟨h1, h2⟩] at hperm
  exact List.perm_singleton.mp hperm

theorem usersAt_applyOverride_outside {ov : Shift} {t : Int} (S : List Shift)
    (hout : t < ov.start_at ∨ ov.end_at ≤ t) (hwf : ov.start_at ≤ ov.end_at) :
    (usersAt (applyOverride S ov) t).Perm (usersAt S t) := by
  rw [applyOverride]
  refine (usersAt_sortByStart _ t).trans ?_
  rw [usersAt_append]
  have hov : usersAt [ov] t = [] := by
    rw [usersAt_single, if_neg (by omega)]
  rw [hov, List.append_nil]
  have hfm : usersAt (S.flatMap (splitShift ov)) t = usersAt S t := by
    induction S with
    | nil => rfl
    | cons a S ih =>
        rw [List.flatMap_cons, usersAt_append, usersAt_splitShift_outside a hout hwf, ih,
          usersAt_single, usersAt_cons]
  rw [hfm]

theorem usersAt_foldl_outside {t : Int} (L : List Shift) :
    ∀ S : List Shift,
      (∀ ov ∈ L, ¬(ov.start_at ≤ t ∧ t < ov.end_at)) →
      (∀ ov ∈ L, ov.start_at ≤ ov.end_at) →
      (usersAt (List.foldl applyOverride S L) t).Perm (usersAt S t) := by
  induction L with
  | nil => intro S _ _; exact List.Perm.refl _
  | cons ov L ih =>
      intro S hno hwf
      rw [List.foldl_cons]
      refine (ih _ (fun x hx => hno x (by simp [hx])) (fun x hx => hwf x (by simp [hx]))).trans ?_
      have hov := hno ov (by simp)
      exact @usersAt_applyOverride_outside ov t S (by omega) (hwf ov (by simp))

theorem usersAt_foldl_inside {t : Int} (L : List Shift) :
    ∀ (S : List Shift) (ov : Shift), ov ∈ L →
      ov.start_at ≤ t → t < ov.end_at →
      (∀ x ∈ L, (x.start_at ≤ t ∧ t < x.end_at) → x = ov) →
      (∀ x ∈ L, x.start_at ≤ x.end_at) →
      usersAt (List.foldl applyOverride S L) t = [ov.user] := by
  induction L with
  | nil => intro S ov h; simp at h
  | cons b L ih =>
      intro S ov hmem h1 h2 huniq hwf
      rw [List.foldl_cons]
      by_cases hovL : ov ∈ L
      · exact ih _ ov hovL h1 h2 (fun x hx => huniq x (by simp [hx]))
          (fun x hx => hwf x (by simp [hx]))
      · have hb : b = ov := by
          rcases List.mem_cons.mp hmem with h | h
          · exact h.symm
          · exact absurd h hovL
        subst hb
        have hnoL : ∀ x ∈ L, ¬(x.start_at ≤ t ∧ t < x.end_at) := by
          intro x hx hc
          have hxb := huniq x (by simp [hx]) hc
          exact hovL (hxb ▸ hx)
        have hperm := usersAt_foldl_outside L (applyOverride S b) hnoL
          (fun x hx => hwf x (by simp [hx]))
        rw [usersAt_applyOverride_inside S h1 h2] at hperm
        exact List.perm_singleton.mp hperm

theorem usersAt_foldl_length_le {t : Int} (L : List Shift) :
    ∀ S : List Shift, (∀ x ∈ L, x.start_at ≤ x.end_at) →
      (usersAt S t).length ≤ 1 →
      (usersAt (List.foldl applyOverride S L) t).length ≤ 1 := by
  induction L with
  | nil => intro S _ h; exact h
  | cons ov L ih =>
      intro S hwf hS
      rw [List.foldl_cons]
      refine ih _ (fun x hx => hwf x (by simp [hx])) ?_
      by_cases hc : ov.start_at ≤ t ∧ t < ov.end_at
      · rw [usersAt_applyOverride_inside S hc.1 hc.2]
        simp
      · have hp := @usersAt_applyOverride_outside ov t S (by omega) (hwf ov (by simp))
        rw [hp.length_eq]
        exact hS

theorem sorted_sortByStart (S : List Shift) :
    List.Pairwise (fun a b : Shift => a.start_at ≤ b.start_at) (sortByStart S) := by
  have h := @List.sorted_mergeSort Shift startLe
    (fun a b c hab hbc => by
      simp only [startLe, decide_eq_true_eq] at *
      omega)
    (fun a b => by
      simp only [startLe, Bool.or_eq_true, decide_eq_true_eq]
      omega)
    S
  exact h.imp (fun hab => by simpa [startLe] using hab)

theorem sorted_applyOverride (S : List Shift) (ov : Shift) :
    List.Pairwise (fun a b : Shift => a.start_at ≤ b.start_at) (applyOverride S ov) :=
  sorted_sortByStart _

theorem sorted_foldl (L : List Shift) :
    ∀ S, List.Pairwise (fun a b : Shift => a.start_at ≤ b.start_at) S →
      List.Pairwise (fun a b : Shift => a.start_at ≤ b.start_at)
        (List.foldl applyOverride S L) := by
  induction L with
  | nil => intro S h; exact h
  | cons ov L ih =>
      intro S _
      rw [List.foldl_cons]
      exact ih _ (sorted_applyOverride S ov)

/-! ### Arithmetic facts about the user-index normalisation -/

theorem tmod_gt_neg (a : Int) {b : Int} (hb : 0 < b) : -b < a.tmod b := by
  cases a with
  | ofNat m =>
      have h0 : (0 : Int) ≤ Int.ofNat m := Int.ofNat_le.mpr (Nat.zero_le m)
      have h := Int.tmod_nonneg b h0
      omega
  | negSucc m =>
      cases b with
      | ofNat n =>
          have heq : Int.tmod (Int.negSucc m) (Int.ofNat n) = -Int.ofNat ((m + 1) % n) := rfl
          have hn : 0 < n := Int.ofNat_pos.mp hb
          have hlt : (m + 1) % n < n := Nat.mod_lt (m + 1) hn
          rw [heq]
          exact Int.neg_lt_neg (Int.ofNat_lt.mpr hlt)
      | negSucc n =>
          exact absurd hb (not_lt.mpr (le_of_lt (Int.negSucc_lt_zero n)))

theorem tmod_emod (a N : Int) : (a.tmod N) % N = a % N := by
  have h := Int.tmod_add_tdiv a N
  have heq : a.tmod N = a + N * (-(a.tdiv N)) := by
    have : N * -a.tdiv N = -(N * a.tdiv N) := by ring
    omega
  rw [heq, Int.add_mul_emod_self_left]

/-- JavaScript's `((a % N) + N) % N` (truncating `%`) equals Euclidean
`a mod N` for positive `N`. -/
theorem tmod_normalize (a : Int) {N : Int} (hN : 0 < N) :
    ((a.tmod N) + N).tmod N = a % N := by
  have hlb := tmod_gt_neg a hN
  rw [Int.tmod_eq_emod (by omega) (le_of_lt hN)]
  have hstep : (a.tmod N + N) % N = (a.tmod N) % N := by
    have hform : a.tmod N + N = a.tmod N + N * 1 := by ring
    rw [hform, Int.add_mul_emod_self_left]
  rw [hstep, tmod_emod]

theorem fdiv_mul_le (e : Int) {i : Int} (hi : 0 < i) : (e.fdiv i) * i ≤ e := by
  rw [Int.fdiv_eq_ediv _ (le_of_lt hi)]
  exact Int.ediv_mul_le e (by omega)

/-! ### Lemmas about truncation and filtering -/

theorem mem_truncateAndFilterMs {S : List Shift} {f u : Int} {x : Shift}
    (hx : x ∈ truncateAndFilterMs S f u) :
    f ≤ x.start_at ∧ x.start_at < x.end_at ∧ x.end_at ≤ u ∧
      ∃ s ∈ S, x.user = s.user ∧ x.start_at = max s.start_at f ∧
        x.end_at = min s.end_at u := by
  rw [truncateAndFilterMs] at hx
  obtain ⟨s, hs, hcs⟩ := List.mem_filterMap.mp hx
  rw [clipShift] at hcs
  split at hcs
  · split at hcs
    · cases hcs
      refine ⟨by dsimp only; omega, by dsimp only; omega, by dsimp only; omega,
        s, hs, rfl, rfl, rfl⟩
    · exact Option.noConfusion hcs
  · exact Option.noConfusion hcs

theorem sorted_truncateAndFilterMs {S : List Shift} {f u : Int}
    (h : List.Pairwise (fun a b : Shift => a.start_at ≤ b.start_at) S) :
    List.Pairwise (fun a b : Shift => a.start_at ≤ b.start_at)
      (truncateAndFilterMs S f u) := by
  refine List.Pairwise.filterMap (clipShift f u) ?_ h
  intro a a' hle b hb b' hb'
  rw [Option.mem_def, clipShift] at hb hb'
  split at hb
  · split at hb
    · cases hb
      split at hb'
      · split at hb'
        · cases hb'
          dsimp only
          omega
        · exact Option.noConfusion hb'
      · exact Option.noConfusion hb'
    · exact Option.noConfusion hb
  · exact Option.noConfusion hb

theorem usersAt_truncateAndFilterMs (S : List Shift) {f u t : Int}
    (h1 : f ≤ t) (h2 : t < u) :
    usersAt (truncateAndFilterMs S f u) t = usersAt S t := by
  induction S with
  | nil => rfl
  | cons s S ih =>
      cases hcs : clipShift f u s with
      | none =>
          rw [truncateAndFilterMs, List.filterMap_cons, hcs, usersAt_cons, if_neg ?_,
            List.nil_append]
          · exact ih
          · rw [clipShift] at hcs
            split at hcs
            · split at hcs
              · exact Option.noConfusion hcs
              · rename_i hov hempty
                intro hc
                exact hempty (by omega)
            · rename_i hov
              intro hc
              exact hov ⟨by omega, by omega⟩
      | some b =>
          have hb : b.user = s.user ∧ b.start_at = max s.start_at f ∧
              b.end_at = min s.end_at u := by
            rw [clipShift] at hcs
            split at hcs
            · split at hcs
              · cases hcs
                exact ⟨rfl, rfl, rfl⟩
              · exact Option.noConfusion hcs
            · exact Option.noConfusion hcs
          obtain ⟨hbu, hbs, hbe⟩ := hb
          have ih' : usersAt (List.filterMap (clipShift f u) S) t = usersAt S t := ih
          rw [truncateAndFilterMs, List.filterMap_cons, hcs, usersAt_cons, usersAt_cons, ih']
          by_cases hcov : s.start_at ≤ t ∧ t < s.end_at
          · rw [if_pos hcov, if_pos (by omega), hbu]
          · rw [if_neg hcov, if_neg (by omega)]

theorem truncateAndFilterSchedule_eq_map (S : List Shift) (f u : Int) :
    truncateAndFilterSchedule S f u = (truncateAndFilterMs S f u).map outShiftOf := by
  rw [truncateAndFilterSchedule, truncateAndFilterMs, List.map_filterMap]
  congr 1
  funext s
  simp only [clipShift, outShiftOf]
  split_ifs <;> rfl

theorem clipShift_characterization (f u : Int) (s : Shift) :
    clipShift f u s =
      if (s.start_at < u ∧ s.end_at > f) ∧ max s.start_at f < min s.end_at u then
        some { user := s.user, start_at := max s.start_at f, end_at := min s.end_at u }
      else none := by
  rw [clipShift]
  by_cases h1 : s.start_at < u ∧ s.end_at > f
  · rw [if_pos h1]
    by_cases h2 : max s.start_at f < min s.end_at u
    · rw [if_pos h2, if_pos ⟨h1, h2⟩]
    · rw [if_neg h2, if_neg (by tauto)]
  · rw [if_neg h1, if_neg (by tauto)]

/-! ### Lemmas about the timestamp formatting -/

theorem isAsciiDigit_digitChar (n : Nat) : isAsciiDigit (digitChar n) = true := by
  have h : n % 10 < 10 := Nat.mod_lt _ (by norm_num)
  rw [digitChar, isAsciiDigit]
  set k := n % 10 with hk
  interval_cases k <;> decide

theorem isoShape_dateIso (ms : Int) : isoShape (dateIso ms) = true := by
  rw [dateIso, isoShape]
  simp only [dateIsoChars, pad4, pad2, List.append_assoc, List.cons_append, List.nil_append]
  simp only [isAsciiDigit_digitChar, beq_self_eq_true, Bool.and_true, Bool.true_and]

theorem dateIso_second_trunc (ms : Int) : dateIso ms = dateIso (ms.fdiv 1000 * 1000) := by
  rw [dateIso, dateIso, dateIsoChars, dateIsoChars]
  have h : (ms.fdiv 1000 * 1000).fdiv 1000 = ms.fdiv 1000 := by
    rw [Int.fdiv_eq_ediv _ (by norm_num), Int.mul_ediv_cancel _ (by norm_num)]
  rw [h]

/-! ### Pointwise lemmas at the `applyOverrides` level -/

theorem overlaps_symmetric : Symmetric (fun a b : Shift => ¬ overlaps a b) := by
  intro a b h hov
  exact h ⟨hov.2, hov.1⟩

theorem unique_container {ovs : List Shift} {ov x : Shift} {t : Int}
    (hpw : List.Pairwise (fun a b => ¬ overlaps a b) ovs)
    (hov : ov ∈ ovs) (h1 : ov.start_at ≤ t) (h2 : t < ov.end_at)
    (hx : x ∈ ovs) (hc : x.start_at ≤ t ∧ t < x.end_at) : x = ov := by
  by_contra hne
  have hrel := hpw.forall overlaps_symmetric hx hov hne
  exact hrel ⟨by omega, by omega⟩

theorem usersAt_applyOverrides_inside' {base ovs : List Shift} {ov : Shift} {t : Int}
    (hov : ov ∈ ovs) (h1 : ov.start_at ≤ t) (h2 : t < ov.end_at)
    (huniq : ∀ x ∈ ovs, (x.start_at ≤ t ∧ t < x.end_at) → x = ov)
    (hwf : ∀ x ∈ ovs, x.start_at ≤ x.end_at) :
    usersAt (applyOverrides base ovs) t = [ov.user] := by
  rw [applyOverrides]
  have hperm : (sortByStart ovs).Perm ovs := List.mergeSort_perm ovs startLe
  refine usersAt_foldl_inside _ _ ov (hperm.mem_iff.mpr hov) h1 h2 ?_ ?_
  · intro x hx hc
    exact huniq x (hperm.subset hx) hc
  · intro x hx
    exact hwf x (hperm.subset hx)

theorem usersAt_applyOverrides_inside {base ovs : List Shift} {ov : Shift} {t : Int}
    (hov : ov ∈ ovs) (h1 : ov.start_at ≤ t) (h2 : t < ov.end_at)
    (hpw : List.Pairwise (fun a b => ¬ overlaps a b) ovs)
    (hwf : ∀ x ∈ ovs, x.start_at ≤ x.end_at) :
    usersAt (applyOverrides base ovs) t = [ov.user] :=
  usersAt_applyOverrides_inside' hov h1 h2
    (fun x hx hc => unique_container hpw hov h1 h2 hx hc) hwf

theorem usersAt_applyOverrides_outside {base ovs : List Shift} {t : Int}
    (hno : ∀ x ∈ ovs, ¬(x.start_at ≤ t ∧ t < x.end_at))
    (hwf : ∀ x ∈ ovs, x.start_at ≤ x.end_at) :
    (usersAt (applyOverrides base ovs) t).Perm (usersAt base t) := by
  rw [applyOverrides]
  have hperm : (sortByStart ovs).Perm ovs := List.mergeSort_perm ovs startLe
  exact usersAt_foldl_outside _ _ (fun x hx => hno x (hperm.subset hx))
    (fun x hx => hwf x (hperm.subset hx))

theorem usersAt_applyOverrides_length_le {base ovs : List Shift} {t : Int}
    (hwf : ∀ x ∈ ovs, x.start_at ≤ x.end_at)
    (hbase : (usersAt base t).length ≤ 1) :
    (usersAt (applyOverrides base ovs) t).length ≤ 1 := by
  rw [applyOverrides]
  have hperm : (sortByStart ovs).Perm ovs := List.mergeSort_perm ovs startLe
  exact usersAt_foldl_length_le _ _ (fun x hx => hwf x (hperm.subset hx)) hbase

theorem sorted_applyOverrides {base ovs : List Shift}
    (hbase : List.Pairwise (fun a b : Shift => a.start_at ≤ b.start_at) base) :
    List.Pairwise (fun a b : Shift => a.start_at ≤ b.start_at)
      (applyOverrides base ovs) := by
  rw [applyOverrides]
  exact sorted_foldl _ _ hbase

theorem generateBaseSchedule_ok {config : ScheduleConfig} (fromMs untilMs : Int)
    (hpos : 0 < config.handover_interval_days * msPerDay) :
    generateBaseSchedule config fromMs untilMs =
      Except.ok (genLoop config.users (config.handover_interval_days * msPerDay) untilMs
        (config.handover_start_ms +
          ((fromMs - config.handover_start_ms).fdiv
            (config.handover_interval_days * msPerDay)) *
            (config.handover_interval_days * msPerDay))
        ((((((fromMs - config.handover_start_ms).fdiv
              (config.handover_interval_days * msPerDay)).tmod
                (config.users.length : Int)) +
            (config.users.length : Int)).tmod (config.users.length : Int)).toNat)) := by
  rw [generateBaseSchedule]
  rw [if_neg (by omega)]

/-! ### A fuel-indexed restatement of the generation loop, for evaluation -/

/-- `genLoop` with an explicit iteration bound; agrees with `genLoop`
whenever the fuel covers the loop's iteration count
(`genLoop_eq_genLoopFuel`).  Structural recursion makes it reducible by
the kernel on concrete inputs. -/
def genLoopFuel : Nat → List String → Int → Int → Int → Nat → List Shift
  | 0, _, _, _, _, _ => []
  | n + 1, users, intervalMs, untilMs, startMs, idx =>
      if 0 < intervalMs ∧ startMs < untilMs then
        { user := (users.get? idx).getD "undefined",
          start_at := startMs, end_at := startMs + intervalMs } ::
          genLoopFuel n users intervalMs untilMs (startMs + intervalMs)
            ((idx + 1) % users.length)
      else []

theorem genLoop_eq_genLoopFuel (users : List String) (i u : Int) :
    ∀ (n : Nat) (s : Int) (idx : Nat), u - s ≤ (n : Int) * i →
      genLoop users i u s idx = genLoopFuel n users i u s idx := by
  intro n
  induction n with
  | zero =>
      intro s idx hn
      simp only [Nat.cast_zero, zero_mul] at hn
      rw [genLoop, dif_neg (by omega)]
      rfl
  | succ n ih =>
      intro s idx hn
      by_cases h : 0 < i ∧ s < u
      · rw [genLoop, dif_pos h, genLoopFuel, if_pos h]
        congr 1
        refine ih (s + i) ((idx + 1) % users.length) ?_
        have hexp : ((n + 1 : Nat) : Int) * i = (n : Int) * i + i := by push_cast; ring
        omega
      · rw [genLoop, dif_neg h, genLoopFuel, if_neg h]

theorem generateBaseSchedule_eval (config : ScheduleConfig) (fromMs untilMs : Int) (n : Nat)
    (hpos : 0 < config.handover_interval_days * msPerDay)
    (hn : untilMs -
        (config.handover_start_ms +
          ((fromMs - config.handover_start_ms).fdiv
            (config.handover_interval_days * msPerDay)) *
            (config.handover_interval_days * msPerDay)) ≤
          (n : Int) * (config.handover_interval_days * msPerDay)) :
    generateBaseSchedule config fromMs untilMs =
      Except.ok (genLoopFuel n config.users (config.handover_interval_days * msPerDay) untilMs
        (config.handover_start_ms +
          ((fromMs - config.handover_start_ms).fdiv
            (config.handover_interval_days * msPerDay)) *
            (config.handover_interval_days * msPerDay))
        ((((((fromMs - config.handover_start_ms).fdiv
              (config.handover_interval_days * msPerDay)).tmod
                (config.users.length : Int)) +
            (config.users.length : Int)).tmod (config.users.length : Int)).toNat)) := by
  rw [generateBaseSchedule_ok fromMs untilMs hpos,
    genLoop_eq_genLoopFuel _ _ _ n _ _ hn]

/-! ### The user-index formula -/

theorem index_formula {N : Nat} (hN : 0 < N) (ip : Int) (j : Nat) :
    ((((ip.tmod (N : Int)) + N).tmod N).toNat + j) % N =
      ((((ip + j).tmod (N : Int)) + N).tmod N).toNat := by
  have hNZ : (0 : Int) < (N : Int) := by exact_mod_cast hN
  have h1 := tmod_normalize ip hNZ
  have h2 := tmod_normalize (ip + (j : Int)) hNZ
  rw [h1, h2]
  have hnn : 0 ≤ ip % (N : Int) := Int.emod_nonneg ip (by omega)
  have hnn2 : 0 ≤ (ip + (j : Int)) % (N : Int) := Int.emod_nonneg _ (by omega)
  have hint : ((((ip % (N : Int)).toNat + j) % N : Nat) : Int) = (ip + (j : Int)) % (N : Int) := by
    push_cast [Int.toNat_of_nonneg hnn]
    rw [Int.add_emod ip (j : Int), Int.add_emod (ip % (N : Int)) (j : Int),
      Int.emod_emod_of_dvd _ (dvd_refl _)]
  omega

/-! ### Order-insensitivity of the sort for distinct start times -/

theorem sortByStart_eq_of_perm {ovs ovs' : List Shift}
    (hperm : ovs'.Perm ovs)
    (hpos : ∀ x ∈ ovs, x.start_at < x.end_at)
    (hpw : List.Pairwise (fun a b => ¬ overlaps a b) ovs) :
    sortByStart ovs' = sortByStart ovs := by
  have hne : List.Pairwise (fun a b : Shift => a.start_at ≠ b.start_at) ovs := by
    refine List.Pairwise.imp_of_mem ?_ hpw
    intro a b ha hb hrel heq
    exact hrel ⟨by have := hpos b hb; omega, by have := hpos a ha; omega⟩
  have hnesymm : ∀ {x y : Shift}, x.start_at ≠ y.start_at → y.start_at ≠ x.start_at :=
    fun h => h.symm
  have hp1 : (sortByStart ovs').Perm ovs := (List.mergeSort_perm ovs' startLe).trans hperm
  have hp2 : (sortByStart ovs).Perm ovs := List.mergeSort_perm ovs startLe
  have hne1 := (List.Perm.pairwise_iff hnesymm hp1).mpr hne
  have hne2 := (List.Perm.pairwise_iff hnesymm hp2).mpr hne
  have hs1 : List.Sorted (fun a b : Shift => a.start_at < b.start_at) (sortByStart ovs') := by
    refine ((sorted_sortByStart ovs').and hne1).imp ?_
    intro a b hab
    omega
  have hs2 : List.Sorted (fun a b : Shift => a.start_at < b.start_at) (sortByStart ovs) := by
    refine ((sorted_sortByStart ovs).and hne2).imp ?_
    intro a b hab
    omega
  haveI : IsAntisymm Shift (fun a b : Shift => a.start_at < b.start_at) :=
    ⟨fun a b h1 h2 => absurd h1 (by omega)⟩
  exact List.eq_of_perm_of_sorted (hp1.trans hp2.symm) hs1 hs2

/-! ### Shared facts about a generated base schedule -/

theorem base_facts {config : ScheduleConfig} {fromMs untilMs : Int} {base : List Shift}
    (hdays : 0 < config.handover_interval_days)
    (hwin : fromMs < untilMs)
    (hbase : generateBaseSchedule config fromMs untilMs = Except.ok base) :
    List.Chain' (fun a b => a.end_at = b.start_at) base ∧
    List.Pairwise (fun a b : Shift => a.start_at < b.start_at) base ∧
    (∀ t, (usersAt base t).length ≤ 1) ∧
    (∀ t, fromMs ≤ t → t < untilMs → usersAt base t ≠ []) := by
  have hpos : 0 < config.handover_interval_days * msPerDay := by rw [msPerDay]; omega
  rw [generateBaseSchedule_ok fromMs untilMs hpos] at hbase
  have hb := Except.ok.inj hbase
  subst hb
  refine ⟨chain'_genLoop _ _ _ _ _, pairwise_genLoop _ _ _ _ _,
    fun t => usersAt_genLoop_length_le _ _ _ _ _ _, ?_⟩
  intro t h1 h2
  have hfd := fdiv_mul_le (fromMs - config.handover_start_ms) hpos
  exact usersAt_genLoop_ne_nil config.users t hpos h2 _ _ (by omega)

theorem makeScheduleMs_ok {config : ScheduleConfig} {ovs : List Shift}
    {fromMs untilMs : Int} {out base : List Shift}
    (hbase : generateBaseSchedule config fromMs untilMs = Except.ok base)
    (h : makeScheduleMs config ovs fromMs untilMs = Except.ok out) :
    out = truncateAndFilterMs (applyOverrides base ovs) fromMs untilMs := by
  rw [makeScheduleMs, hbase] at h
  exact (Except.ok.inj h).symm

/-! ### Evaluating `applyOverrides` on concrete inputs

`List.mergeSort` is defined by well-founded recursion, so it does not reduce
inside `decide`; on inputs that are already sorted it is the identity, which
lets concrete runs be evaluated. -/

theorem sortByStart_of_sorted {l : List Shift}
    (h : List.Pairwise (fun a b : Shift => a.start_at ≤ b.start_at) l) :
    sortByStart l = l := by
  refine List.mergeSort_of_sorted (h.imp ?_)
  intro a b hab
  simp only [startLe, decide_eq_true_eq]
  exact hab

theorem applyOverrides_nil_eval (base : List Shift) : applyOverrides base [] = base := by
  rw [applyOverrides, sortByStart, List.mergeSort_nil]
  rfl

theorem applyOverrides_singleton_eval (base : List Shift) (ov : Shift)
    (h : List.Pairwise (fun a b : Shift => a.start_at ≤ b.start_at)
      (base.flatMap (splitShift ov) ++ [ov])) :
    applyOverrides base [ov] = base.flatMap (splitShift ov) ++ [ov] := by
  rw [applyOverrides, sortByStart, List.mergeSort_singleton, List.foldl_cons,
    List.foldl_nil, applyOverride, sortByStart_of_sorted h]

/-! ### The claims -/

/-- C1: for every valid `RotationConfig` (non-empty users, positive interval)
and query window with `from < until`, the base schedule produced by
`generateBaseSchedule` is gapless (each shift's `end_at` equals the next
shift's `start_at`) and sorted by start ascending, and the validity
invariant — sorted order, no two overlapping assignments at any instant,
and full coverage of the window — is preserved by `applyOverrides` for
mutually non-overlapping (well-formed) overrides. -/
theorem claim1_schedule_invariant {config : ScheduleConfig} {fromMs untilMs : Int}
    {base ovs : List Shift}
    (husers : config.users ≠ [])
    (hdays : 0 < config.handover_interval_days)
    (hwin : fromMs < untilMs)
    (hbase : generateBaseSchedule config fromMs untilMs = Except.ok base)
    (hwf : ∀ x ∈ ovs, x.start_at < x.end_at)
    (hpw : List.Pairwise (fun a b => ¬ overlaps a b) ovs) :
    List.Chain' (fun a b => a.end_at = b.start_at) base ∧
    List.Pairwise (fun a b : Shift => a.start_at < b.start_at) base ∧
    List.Pairwise (fun a b : Shift => a.start_at ≤ b.start_at) (applyOverrides base ovs) ∧
    (∀ t : Int, (usersAt (applyOverrides base ovs) t).length ≤ 1) ∧
    (∀ t : Int, fromMs ≤ t → t < untilMs → usersAt (applyOverrides base ovs) t ≠ []) := by
  obtain ⟨hchain, hsorted, hle, hcover⟩ := base_facts hdays hwin hbase
  have hwf' : ∀ x ∈ ovs, x.start_at ≤ x.end_at := fun x hx => le_of_lt (hwf x hx)
  refine ⟨hchain, hsorted, sorted_applyOverrides (hsorted.imp le_of_lt), ?_, ?_⟩
  · intro t
    exact usersAt_applyOverrides_length_le hwf' (hle t)
  · intro t h1 h2
    by_cases hex : ∃ ov ∈ ovs, ov.start_at ≤ t ∧ t < ov.end_at
    · obtain ⟨ov, hov, hc1, hc2⟩ := hex
      rw [usersAt_applyOverrides_inside hov hc1 hc2 hpw hwf']
      simp
    · have hperm := @usersAt_applyOverrides_outside base ovs t
        (fun x hx hc => hex ⟨x, hx, hc.1, hc.2⟩) hwf'
      intro hnil
      rw [hnil] at hperm
      exact hcover t h1 h2 hperm.symm.eq_nil

/-- C2: every instant strictly inside an override's half-open interval is
assigned to that override's user by `applyOverrides`, and an override that
exactly or more-than covers a shift consumes it with zero remnants. -/
theorem claim2_override_precedence {base ovs : List Shift} {ov : Shift} {t : Int}
    (hov : ov ∈ ovs) (h1 : ov.start_at ≤ t) (h2 : t < ov.end_at)
    (hpw : List.Pairwise (fun a b => ¬ overlaps a b) ovs)
    (hwf : ∀ x ∈ ovs, x.start_at ≤ x.end_at) :
    usersAt (applyOverrides base ovs) t = [ov.user] ∧
    (∀ s : Shift, s.start_at < s.end_at → ov.start_at ≤ s.start_at →
      s.end_at ≤ ov.end_at → splitShift ov s = []) := by
  refine ⟨usersAt_applyOverrides_inside hov h1 h2 hpw hwf, ?_⟩
  intro s hs hc1 hc2
  rw [splitShift, if_pos ⟨by omega, by omega⟩, if_neg (by omega), if_neg (by omega)]
  rfl

/-- C3: an instant covered by no override keeps the base schedule's
assignment (as a multiset of covering users), and an overlapping shift is
replaced by its before-remnant (when `shiftStart < overrideStart`) and
after-remnant (when `shiftEnd > overrideEnd`), both keeping the original
shift's user. -/
theorem claim3_non_override_preservation {base ovs : List Shift} {t : Int}
    (hwf : ∀ x ∈ ovs, x.start_at ≤ x.end_at)
    (hno : ∀ ov ∈ ovs, ¬(ov.start_at ≤ t ∧ t < ov.end_at)) :
    (usersAt (applyOverrides base ovs) t).Perm (usersAt base t) ∧
    (∀ ov s : Shift, ¬ overlaps ov s → splitShift ov s = [s]) ∧
    (∀ ov s : Shift, overlaps ov s →
      splitShift ov s =
        (if s.start_at < ov.start_at then
          [{ user := s.user, start_at := s.start_at, end_at := ov.start_at }] else []) ++
        (if s.end_at > ov.end_at then
          [{ user := s.user, start_at := ov.end_at, end_at := s.end_at }] else [])) := by
  refine ⟨usersAt_applyOverrides_outside hno hwf, ?_, ?_⟩
  · intro ov s hnov
    rw [overlaps] at hnov
    rw [splitShift, if_neg hnov]
  · intro ov s hov
    rw [overlaps] at hov
    rw [splitShift, if_pos hov]

/-- C4 (counterexample): `generateBaseSchedule` does not raise an error for
an empty user list — contrary to the claim that an `InvalidConfig` error is
raised exactly when the interval is non-positive *or* the user list is
empty, a run with no users and a positive interval returns a schedule
(with an undefined user). -/
theorem claim4_counterexample :
    (⟨[], 0, 1⟩ : ScheduleConfig).users = [] ∧
    generateBaseSchedule ⟨[], 0, 1⟩ 0 86400000 =
      Except.ok [{ user := "undefined", start_at := 0, end_at := 86400000 }] := by
  refine ⟨rfl, ?_⟩
  rw [generateBaseSchedule_eval ⟨[], 0, 1⟩ 0 86400000 2 (by decide) (by decide)]
  rfl

/-- C4 (amended): `generateBaseSchedule` raises its error — before any
schedule generation — exactly when the rotation interval duration is ≤ 0;
the user list is not validated, so an empty user list raises no error. -/
theorem claim4_invalidconfig_iff (config : ScheduleConfig) (fromMs untilMs : Int) :
    (∃ e, generateBaseSchedule config fromMs untilMs = Except.error e) ↔
      config.handover_interval_days * msPerDay ≤ 0 := by
  rw [generateBaseSchedule]
  split_ifs with h
  · exact ⟨fun _ => h, fun _ => ⟨_, rfl⟩⟩
  · simp only [not_le] at h
    constructor
    · rintro ⟨e, he⟩
      exact he.elim
    · intro hc
      omega

/-- C5: for a valid config and window, the base schedule is non-empty, its
first shift starts at `anchor + floor((from − anchor) / interval) * interval`
which is ≤ `from`, its last shift ends at or after `until`, and every shift
boundary is the anchor plus an integer multiple of the interval duration. -/
theorem claim5_base_coverage {config : ScheduleConfig} {fromMs untilMs : Int}
    {base : List Shift}
    (husers : config.users ≠ [])
    (hdays : 0 < config.handover_interval_days)
    (hwin : fromMs < untilMs)
    (hbase : generateBaseSchedule config fromMs untilMs = Except.ok base) :
    base ≠ [] ∧
    (∀ x, base.head? = some x →
      x.start_at = config.handover_start_ms +
        ((fromMs - config.handover_start_ms).fdiv
          (config.handover_interval_days * msPerDay)) *
          (config.handover_interval_days * msPerDay) ∧
      x.start_at ≤ fromMs) ∧
    (∀ x, base.getLast? = some x → untilMs ≤ x.end_at) ∧
    (∀ x ∈ base, ∃ k : Int,
      x.start_at = config.handover_start_ms +
        k * (config.handover_interval_days * msPerDay) ∧
      x.end_at = config.handover_start_ms +
        (k + 1) * (config.handover_interval_days * msPerDay)) := by
  have hpos : 0 < config.handover_interval_days * msPerDay := by rw [msPerDay]; omega
  rw [generateBaseSchedule_ok fromMs untilMs hpos] at hbase
  have hb := Except.ok.inj hbase
  subst hb
  have hfd := fdiv_mul_le (fromMs - config.handover_start_ms) hpos
  refine ⟨genLoop_ne_nil ⟨hpos, by omega⟩, ?_, ?_, ?_⟩
  · intro x hx
    have hstart := head?_genLoop_start _ _ _ _ _ x hx
    exact ⟨hstart, by omega⟩
  · exact fun x hx => getLast?_genLoop _ _ _ _ _ x hx
  · intro x hx
    obtain ⟨h1, h2, h3, k, hk⟩ := mem_genLoop _ _ _ _ _ x hx
    refine ⟨(fromMs - config.handover_start_ms).fdiv
      (config.handover_interval_days * msPerDay) + (k : Int), ?_, ?_⟩
    · rw [hk]; push_cast; ring
    · rw [h2, hk]; push_cast; ring

/-- C6: the user assigned to the base shift at interval offset `i` from the
anchor is `users[((i mod N) + N) mod N]` (JavaScript truncating `%`), for
all offsets including negative ones when the window precedes the anchor:
the `j`-th generated shift sits at offset `intervalsPassed + j` and is
assigned exactly that user. -/
theorem claim6_cyclic_fairness {config : ScheduleConfig} {fromMs untilMs : Int}
    {base : List Shift}
    (husers : config.users ≠ [])
    (hdays : 0 < config.handover_interval_days)
    (hbase : generateBaseSchedule config fromMs untilMs = Except.ok base) :
    ∀ (j : Nat) (x : Shift), base.get? j = some x →
      x.start_at = config.handover_start_ms +
        ((fromMs - config.handover_start_ms).fdiv
          (config.handover_interval_days * msPerDay) + (j : Int)) *
          (config.handover_interval_days * msPerDay) ∧
      config.users.get?
        (((((fromMs - config.handover_start_ms).fdiv
              (config.handover_interval_days * msPerDay) + (j : Int)).tmod
            (config.users.length : Int) + (config.users.length : Int)).tmod
          (config.users.length : Int)).toNat) = some x.user := by
  have hpos : 0 < config.handover_interval_days * msPerDay := by rw [msPerDay]; omega
  rw [generateBaseSchedule_ok fromMs untilMs hpos] at hbase
  have hb := Except.ok.inj hbase
  subst hb
  intro j x hx
  have hN : 0 < config.users.length := List.length_pos.mpr husers
  have hNZ : (0 : Int) < (config.users.length : Int) := by exact_mod_cast hN
  have hidx0 : ((((fromMs - config.handover_start_ms).fdiv
      (config.handover_interval_days * msPerDay)).tmod (config.users.length : Int) +
        (config.users.length : Int)).tmod (config.users.length : Int)).toNat <
      config.users.length := by
    rw [tmod_normalize _ hNZ]
    have hm1 := Int.emod_lt_of_pos ((fromMs - config.handover_start_ms).fdiv
      (config.handover_interval_days * msPerDay)) hNZ
    have hm2 := Int.emod_nonneg ((fromMs - config.handover_start_ms).fdiv
      (config.handover_interval_days * msPerDay))
      (b := (config.users.length : Int)) (by omega)
    omega
  obtain ⟨hu, hs, he⟩ := get?_genLoop _ _ _ _ _ j x (Or.inl hidx0) hx
  have htlt : (((((fromMs - config.handover_start_ms).fdiv
      (config.handover_interval_days * msPerDay)) + (j : Int)).tmod
        (config.users.length : Int) + (config.users.length : Int)).tmod
          (config.users.length : Int)).toNat < config.users.length := by
    rw [tmod_normalize _ hNZ]
    have hm1 := Int.emod_lt_of_pos (((fromMs - config.handover_start_ms).fdiv
      (config.handover_interval_days * msPerDay)) + (j : Int)) hNZ
    have hm2 := Int.emod_nonneg (((fromMs - config.handover_start_ms).fdiv
      (config.handover_interval_days * msPerDay)) + (j : Int))
      (b := (config.users.length : Int)) (by omega)
    omega
  constructor
  · rw [hs]; push_cast; ring
  · rw [index_formula hN _ j] at hu
    rw [List.get?_eq_get htlt] at hu
    rw [List.get?_eq_get htlt]
    rw [Option.getD_some] at hu
    exact congrArg some hu.symm

/-- C7: `applyOverrides` gives the same result for any supply order of a
mutually non-overlapping collection of (positive-duration) overrides. -/
theorem claim7_order_insensitive {base ovs ovs' : List Shift}
    (hperm : ovs'.Perm ovs)
    (hpos : ∀ x ∈ ovs, x.start_at < x.end_at)
    (hpw : List.Pairwise (fun a b => ¬ overlaps a b) ovs) :
    applyOverrides base ovs' = applyOverrides base ovs := by
  rw [applyOverrides, applyOverrides, sortByStart_eq_of_perm hperm hpos hpw]

/-- C8: `truncateAndFilterSchedule` drops exactly the shifts with no window
overlap or an empty clipped interval, clips survivors to
`[max(start, from), min(end, until))` — so every retained shift satisfies
`from ≤ start < end ≤ until` — preserves ascending order, and formats both
boundaries with `dateIso`, a second-truncated UTC timestamp of the shape
`YYYY-MM-DDTHH:MM:SSZ`. -/
theorem claim8_truncation_correctness {S : List Shift} {f u : Int}
    (hsorted : List.Pairwise (fun a b : Shift => a.start_at ≤ b.start_at) S) :
    truncateAndFilterSchedule S f u = (truncateAndFilterMs S f u).map outShiftOf ∧
    (∀ s : Shift, clipShift f u s =
      if (s.start_at < u ∧ s.end_at > f) ∧ max s.start_at f < min s.end_at u then
        some { user := s.user, start_at := max s.start_at f, end_at := min s.end_at u }
      else none) ∧
    (∀ x ∈ truncateAndFilterMs S f u,
      f ≤ x.start_at ∧ x.start_at < x.end_at ∧ x.end_at ≤ u) ∧
    List.Pairwise (fun a b : Shift => a.start_at ≤ b.start_at)
      (truncateAndFilterMs S f u) ∧
    (∀ x ∈ truncateAndFilterMs S f u,
      isoShape (dateIso x.start_at) = true ∧ isoShape (dateIso x.end_at) = true) ∧
    (∀ ms : Int, dateIso ms = dateIso (ms.fdiv 1000 * 1000)) := by
  refine ⟨truncateAndFilterSchedule_eq_map S f u, clipShift_characterization f u, ?_,
    sorted_truncateAndFilterMs hsorted, ?_, dateIso_second_trunc⟩
  · intro x hx
    obtain ⟨h1, h2, h3, _⟩ := mem_truncateAndFilterMs hx
    exact ⟨h1, h2, h3⟩
  · intro x _
    exact ⟨isoShape_dateIso _, isoShape_dateIso _⟩

/-! ### Adding an override that covers no instant of the window -/

theorem makeScheduleMs_extra_override {config : ScheduleConfig}
    {fromMs untilMs : Int} {z : Shift} {ovs out1 out2 : List Shift}
    (hdays : 0 < config.handover_interval_days)
    (hwin : fromMs < untilMs)
    (hzwf : z.start_at ≤ z.end_at)
    (hznot : ∀ t : Int, fromMs ≤ t → t < untilMs → ¬(z.start_at ≤ t ∧ t < z.end_at))
    (hwf : ∀ x ∈ ovs, x.start_at ≤ x.end_at)
    (hpw : List.Pairwise (fun a b => ¬ overlaps a b) ovs)
    (h1 : makeScheduleMs config (z :: ovs) fromMs untilMs = Except.ok out1)
    (h2 : makeScheduleMs config ovs fromMs untilMs = Except.ok out2) :
    ∀ t : Int, fromMs ≤ t → t < untilMs → (usersAt out1 t).Perm (usersAt out2 t) := by
  cases hgen : generateBaseSchedule config fromMs untilMs with
  | error e =>
      rw [makeScheduleMs, hgen] at h1
      exact absurd h1 (by intro hh; exact Except.noConfusion hh)
  | ok base =>
      have e1 := makeScheduleMs_ok hgen h1
      have e2 := makeScheduleMs_ok hgen h2
      subst e1
      subst e2
      intro t ht1 ht2
      rw [usersAt_truncateAndFilterMs _ ht1 ht2, usersAt_truncateAndFilterMs _ ht1 ht2]
      have hztn : ¬(z.start_at ≤ t ∧ t < z.end_at) := hznot t ht1 ht2
      have hwf1 : ∀ x ∈ z :: ovs, x.start_at ≤ x.end_at := by
        intro x hx
        rcases List.mem_cons.mp hx with rfl | hx
        · exact hzwf
        · exact hwf x hx
      by_cases hex : ∃ ov ∈ ovs, ov.start_at ≤ t ∧ t < ov.end_at
      · obtain ⟨ov, hov, hc1, hc2⟩ := hex
        have huniq : ∀ x ∈ ovs, (x.start_at ≤ t ∧ t < x.end_at) → x = ov :=
          fun x hx hc => unique_container hpw hov hc1 hc2 hx hc
        have huniq1 : ∀ x ∈ z :: ovs, (x.start_at ≤ t ∧ t < x.end_at) → x = ov := by
          intro x hx hc
          rcases List.mem_cons.mp hx with rfl | hx
          · exact absurd hc hztn
          · exact huniq x hx hc
        rw [usersAt_applyOverrides_inside' (List.mem_cons_of_mem z hov) hc1 hc2 huniq1 hwf1,
          usersAt_applyOverrides_inside' hov hc1 hc2 huniq hwf]
      · have hno1 : ∀ x ∈ z :: ovs, ¬(x.start_at ≤ t ∧ t < x.end_at) := by
          intro x hx
          rcases List.mem_cons.mp hx with rfl | hx
          · exact hztn
          · exact fun hc => hex ⟨x, hx, hc⟩
        have hp1 := @usersAt_applyOverrides_outside base (z :: ovs) t hno1 hwf1
        have hp2 := @usersAt_applyOverrides_outside base ovs t
          (fun x hx hc => hex ⟨x, hx, hc⟩) hwf
        exact hp1.trans hp2.symm

theorem makeScheduleMs_mem_bounds {config : ScheduleConfig} {ovs : List Shift}
    {fromMs untilMs : Int} {out : List Shift}
    (h : makeScheduleMs config ovs fromMs untilMs = Except.ok out) :
    ∀ x ∈ out, fromMs ≤ x.start_at ∧ x.start_at < x.end_at ∧ x.end_at ≤ untilMs := by
  cases hgen : generateBaseSchedule config fromMs untilMs with
  | error e =>
      rw [makeScheduleMs, hgen] at h
      exact absurd h (by intro hh; exact Except.noConfusion hh)
  | ok base =>
      have e1 := makeScheduleMs_ok hgen h
      subst e1
      intro x hx
      obtain ⟨b1, b2, b3, _⟩ := mem_truncateAndFilterMs hx
      exact ⟨b1, b2, b3⟩

/-- C9: an override lying entirely outside the query window leaves the
truncated schedule's assignment at every window instant unchanged, and no
output entry lies inside that override's interval. -/
theorem claim9_outside_override {config : ScheduleConfig} {fromMs untilMs : Int}
    {z : Shift} {ovs out1 out2 : List Shift}
    (husers : config.users ≠ [])
    (hdays : 0 < config.handover_interval_days)
    (hwin : fromMs < untilMs)
    (hz : z.start_at < z.end_at)
    (hzout : z.end_at ≤ fromMs ∨ untilMs ≤ z.start_at)
    (hwf : ∀ x ∈ ovs, x.start_at ≤ x.end_at)
    (hpw : List.Pairwise (fun a b => ¬ overlaps a b) ovs)
    (h1 : makeScheduleMs config (z :: ovs) fromMs untilMs = Except.ok out1)
    (h2 : makeScheduleMs config ovs fromMs untilMs = Except.ok out2) :
    (∀ t : Int, fromMs ≤ t → t < untilMs → (usersAt out1 t).Perm (usersAt out2 t)) ∧
    (∀ x ∈ out1, ¬(z.start_at ≤ x.start_at ∧ x.end_at ≤ z.end_at)) := by
  constructor
  · exact makeScheduleMs_extra_override hdays hwin (le_of_lt hz)
      (fun t ht1 ht2 hc => by omega) hwf hpw h1 h2
  · intro x hx
    have hb := makeScheduleMs_mem_bounds h1 x hx
    omega

/-- C10 (counterexample): a zero-duration override is *not* an identity at
the public boundary — it splits the base shift it lands in into two
adjacent same-user output entries, so the output list differs from the one
produced without the override. -/
theorem claim10_counterexample :
    makeScheduleMs ⟨["A"], 0, 1⟩
        [{ user := "C", start_at := 3600000, end_at := 3600000 }] 0 86400000 ≠
      makeScheduleMs ⟨["A"], 0, 1⟩ [] 0 86400000 := by
  have hev : generateBaseSchedule ⟨["A"], 0, 1⟩ 0 86400000 =
      Except.ok [{ user := "A", start_at := 0, end_at := 86400000 }] := by
    rw [generateBaseSchedule_eval ⟨["A"], 0, 1⟩ 0 86400000 2 (by decide) (by decide)]
    rfl
  have hov := applyOverrides_singleton_eval
    [({ user := "A", start_at := 0, end_at := 86400000 } : Shift)]
    { user := "C", start_at := 3600000, end_at := 3600000 } (by decide)
  have hnil := applyOverrides_nil_eval
    [({ user := "A", start_at := 0, end_at := 86400000 } : Shift)]
  intro hcontra
  simp only [makeScheduleMs, hev, hov, hnil] at hcontra
  exact absurd (Except.ok.inj hcontra) (by decide)

/-- C10 (amended): a zero-duration override never changes the assignment at
any instant of the window — any shift it splits yields adjacent same-user
remnants reassembling the original coverage — and every surviving output
entry has positive duration (the zero-length entry is dropped by the
positive-duration filter); the output lists themselves may still differ,
as the counterexample shows. -/
theorem claim10_zero_override_pointwise {config : ScheduleConfig} {fromMs untilMs : Int}
    {z : Shift} {ovs out1 out2 : List Shift}
    (husers : config.users ≠ [])
    (hdays : 0 < config.handover_interval_days)
    (hwin : fromMs < untilMs)
    (hz : z.start_at = z.end_at)
    (hwf : ∀ x ∈ ovs, x.start_at ≤ x.end_at)
    (hpw : List.Pairwise (fun a b => ¬ overlaps a b) ovs)
    (h1 : makeScheduleMs config (z :: ovs) fromMs untilMs = Except.ok out1)
    (h2 : makeScheduleMs config ovs fromMs untilMs = Except.ok out2) :
    (∀ t : Int, fromMs ≤ t → t < untilMs → (usersAt out1 t).Perm (usersAt out2 t)) ∧
    (∀ x ∈ out1, x.start_at < x.end_at) ∧
    (∀ x ∈ out2, x.start_at < x.end_at) := by
  refine ⟨makeScheduleMs_extra_override hdays hwin (le_of_eq hz)
    (fun t ht1 ht2 hc => by omega) hwf hpw h1 h2, ?_, ?_⟩
  · exact fun x hx => (makeScheduleMs_mem_bounds h1 x hx).2.1
  · exact fun x hx => (makeScheduleMs_mem_bounds h2 x hx).2.1

/-! ### Witnesses -/

/-- Witness for C1: a two-user daily rotation over a two-day window with one
in-window override. -/
theorem claim1_witness :
    ((⟨["A", "B"], 0, 1⟩ : ScheduleConfig).users ≠ [] ∧
      (0 : Int) < (⟨["A", "B"], 0, 1⟩ : ScheduleConfig).handover_interval_days ∧
      (0 : Int) < (172800000 : Int) ∧
      generateBaseSchedule ⟨["A", "B"], 0, 1⟩ 0 172800000 =
        Except.ok [{ user := "A", start_at := 0, end_at := 86400000 },
          { user := "B", start_at := 86400000, end_at := 172800000 }] ∧
      (∀ x ∈ [({ user := "C", start_at := 3600000, end_at := 7200000 } : Shift)],
        x.start_at < x.end_at) ∧
      List.Pairwise (fun a b => ¬ overlaps a b)
        [({ user := "C", start_at := 3600000, end_at := 7200000 } : Shift)]) ∧
    (List.Chain' (fun a b => a.end_at = b.start_at)
      [({ user := "A", start_at := 0, end_at := 86400000 } : Shift),
        { user := "B", start_at := 86400000, end_at := 172800000 }] ∧
    List.Pairwise (fun a b : Shift => a.start_at < b.start_at)
      [({ user := "A", start_at := 0, end_at := 86400000 } : Shift),
        { user := "B", start_at := 86400000, end_at := 172800000 }] ∧
    List.Pairwise (fun a b : Shift => a.start_at ≤ b.start_at)
      (applyOverrides
        [{ user := "A", start_at := 0, end_at := 86400000 },
          { user := "B", start_at := 86400000, end_at := 172800000 }]
        [{ user := "C", start_at := 3600000, end_at := 7200000 }]) ∧
    (∀ t : Int, (usersAt (applyOverrides
        [{ user := "A", start_at := 0, end_at := 86400000 },
          { user := "B", start_at := 86400000, end_at := 172800000 }]
        [{ user := "C", start_at := 3600000, end_at := 7200000 }]) t).length ≤ 1) ∧
    (∀ t : Int, (0 : Int) ≤ t → t < 172800000 →
      usersAt (applyOverrides
        [{ user := "A", start_at := 0, end_at := 86400000 },
          { user := "B", start_at := 86400000, end_at := 172800000 }]
        [{ user := "C", start_at := 3600000, end_at := 7200000 }]) t ≠ [])) := by
  have h4 : generateBaseSchedule ⟨["A", "B"], 0, 1⟩ 0 172800000 =
      Except.ok [{ user := "A", start_at := 0, end_at := 86400000 },
        { user := "B", start_at := 86400000, end_at := 172800000 }] := by
    rw [generateBaseSchedule_eval ⟨["A", "B"], 0, 1⟩ 0 172800000 2 (by decide) (by decide)]
    rfl
  exact ⟨⟨by decide, by decide, by decide, h4, by decide, by decide⟩,
    claim1_schedule_invariant (by decide) (by decide) (by decide) h4 (by decide) (by decide)⟩

/-- Witness for C2: an override covering a whole one-day shift wins at an
interior instant, and the covered shift splits into zero remnants. -/
theorem claim2_witness :
    (({ user := "C", start_at := 0, end_at := 86400000 } : Shift) ∈
        [({ user := "C", start_at := 0, end_at := 86400000 } : Shift)] ∧
      ({ user := "C", start_at := 0, end_at := 86400000 } : Shift).start_at ≤ 3600000 ∧
      (3600000 : Int) < ({ user := "C", start_at := 0, end_at := 86400000 } : Shift).end_at ∧
      List.Pairwise (fun a b => ¬ overlaps a b)
        [({ user := "C", start_at := 0, end_at := 86400000 } : Shift)] ∧
      (∀ x ∈ [({ user := "C", start_at := 0, end_at := 86400000 } : Shift)],
        x.start_at ≤ x.end_at)) ∧
    (usersAt (applyOverrides [{ user := "A", start_at := 0, end_at := 86400000 }]
        [{ user := "C", start_at := 0, end_at := 86400000 }]) 3600000 = ["C"] ∧
    (∀ s : Shift, s.start_at < s.end_at →
      ({ user := "C", start_at := 0, end_at := 86400000 } : Shift).start_at ≤ s.start_at →
      s.end_at ≤ ({ user := "C", start_at := 0, end_at := 86400000 } : Shift).end_at →
      splitShift { user := "C", start_at := 0, end_at := 86400000 } s = [])) :=
  ⟨⟨by decide, by decide, by decide, by decide, by decide⟩,
    @claim2_override_precedence
      [{ user := "A", start_at := 0, end_at := 86400000 }]
      [{ user := "C", start_at := 0, end_at := 86400000 }]
      { user := "C", start_at := 0, end_at := 86400000 }
      3600000
      (by decide) (by decide) (by decide) (by decide) (by decide)⟩

/-- Witness for C3: an instant after a morning override keeps the base
user's assignment. -/
theorem claim3_witness :
    ((∀ x ∈ [({ user := "C", start_at := 0, end_at := 3600000 } : Shift)],
        x.start_at ≤ x.end_at) ∧
      (∀ ov ∈ [({ user := "C", start_at := 0, end_at := 3600000 } : Shift)],
        ¬(ov.start_at ≤ 7200000 ∧ (7200000 : Int) < ov.end_at))) ∧
    ((usersAt (applyOverrides [{ user := "A", start_at := 0, end_at := 86400000 }]
        [{ user := "C", start_at := 0, end_at := 3600000 }]) 7200000).Perm
      (usersAt [{ user := "A", start_at := 0, end_at := 86400000 }] 7200000) ∧
    (∀ ov s : Shift, ¬ overlaps ov s → splitShift ov s = [s]) ∧
    (∀ ov s : Shift, overlaps ov s →
      splitShift ov s =
        (if s.start_at < ov.start_at then
          [{ user := s.user, start_at := s.start_at, end_at := ov.start_at }] else []) ++
        (if s.end_at > ov.end_at then
          [{ user := s.user, start_at := ov.end_at, end_at := s.end_at }] else []))) :=
  ⟨⟨by decide, by decide⟩,
    @claim3_non_override_preservation
      [{ user := "A", start_at := 0, end_at := 86400000 }]
      [{ user := "C", start_at := 0, end_at := 3600000 }]
      7200000
      (by decide) (by decide)⟩

/-- Witness for C5: a noon `from` resolves to the midnight shift containing
it, and the base schedule covers the window. -/
theorem claim5_witness :
    ((⟨["A", "B"], 0, 1⟩ : ScheduleConfig).users ≠ [] ∧
      (0 : Int) < (⟨["A", "B"], 0, 1⟩ : ScheduleConfig).handover_interval_days ∧
      (43200000 : Int) < (172800000 : Int) ∧
      generateBaseSchedule ⟨["A", "B"], 0, 1⟩ 43200000 172800000 =
        Except.ok [{ user := "A", start_at := 0, end_at := 86400000 },
          { user := "B", start_at := 86400000, end_at := 172800000 }]) ∧
    ([({ user := "A", start_at := 0, end_at := 86400000 } : Shift),
        { user := "B", start_at := 86400000, end_at := 172800000 }] ≠ [] ∧
    (∀ x : Shift, [({ user := "A", start_at := 0, end_at := 86400000 } : Shift),
        { user := "B", start_at := 86400000, end_at := 172800000 }].head? = some x →
      x.start_at = 0 + ((43200000 - 0 : Int).fdiv (1 * msPerDay)) * (1 * msPerDay) ∧
      x.start_at ≤ 43200000) ∧
    (∀ x : Shift, [({ user := "A", start_at := 0, end_at := 86400000 } : Shift),
        { user := "B", start_at := 86400000, end_at := 172800000 }].getLast? = some x →
      (172800000 : Int) ≤ x.end_at) ∧
    (∀ x ∈ [({ user := "A", start_at := 0, end_at := 86400000 } : Shift),
        { user := "B", start_at := 86400000, end_at := 172800000 }], ∃ k : Int,
      x.start_at = 0 + k * (1 * msPerDay) ∧
      x.end_at = 0 + (k + 1) * (1 * msPerDay))) := by
  have h4 : generateBaseSchedule ⟨["A", "B"], 0, 1⟩ 43200000 172800000 =
      Except.ok [{ user := "A", start_at := 0, end_at := 86400000 },
        { user := "B", start_at := 86400000, end_at := 172800000 }] := by
    rw [generateBaseSchedule_eval ⟨["A", "B"], 0, 1⟩ 43200000 172800000 2
      (by decide) (by decide)]
    rfl
  exact ⟨⟨by decide, by decide, by decide, h4⟩,
    claim5_base_coverage (by decide) (by decide) (by decide) h4⟩

/-- Witness for C6: a window one interval before the anchor is assigned the
last user of the rotation (`users[N − 1]`), exercising a negative interval
offset. -/
theorem claim6_witness :
    ((⟨["A", "B"], 0, 1⟩ : ScheduleConfig).users ≠ [] ∧
      (0 : Int) < (⟨["A", "B"], 0, 1⟩ : ScheduleConfig).handover_interval_days ∧
      generateBaseSchedule ⟨["A", "B"], 0, 1⟩ (-86400000) 0 =
        Except.ok [{ user := "B", start_at := -86400000, end_at := 0 }]) ∧
    (∀ (j : Nat) (x : Shift),
      [({ user := "B", start_at := -86400000, end_at := 0 } : Shift)].get? j = some x →
      x.start_at = 0 + (((-86400000 : Int) - 0).fdiv (1 * msPerDay) + (j : Int)) *
        (1 * msPerDay) ∧
      ["A", "B"].get?
        ((((((-86400000 : Int) - 0).fdiv (1 * msPerDay) + (j : Int)).tmod 2 + 2).tmod 2).toNat) =
        some x.user) := by
  have h4 : generateBaseSchedule ⟨["A", "B"], 0, 1⟩ (-86400000) 0 =
      Except.ok [{ user := "B", start_at := -86400000, end_at := 0 }] := by
    rw [generateBaseSchedule_eval ⟨["A", "B"], 0, 1⟩ (-86400000) 0 2 (by decide) (by decide)]
    rfl
  exact ⟨⟨by decide, by decide, h4⟩, claim6_cyclic_fairness (by decide) (by decide) h4⟩

/-- Witness for C7: swapping the supply order of two disjoint overrides
yields the same schedule. -/
theorem claim7_witness :
    (List.Perm
        [({ user := "C", start_at := 30, end_at := 40 } : Shift),
          { user := "B", start_at := 10, end_at := 20 }]
        [({ user := "B", start_at := 10, end_at := 20 } : Shift),
          { user := "C", start_at := 30, end_at := 40 }] ∧
      (∀ x ∈ [({ user := "B", start_at := 10, end_at := 20 } : Shift),
          { user := "C", start_at := 30, end_at := 40 }], x.start_at < x.end_at) ∧
      List.Pairwise (fun a b => ¬ overlaps a b)
        [({ user := "B", start_at := 10, end_at := 20 } : Shift),
          { user := "C", start_at := 30, end_at := 40 }]) ∧
    applyOverrides [{ user := "A", start_at := 0, end_at := 100 }]
        [{ user := "C", start_at := 30, end_at := 40 },
          { user := "B", start_at := 10, end_at := 20 }] =
      applyOverrides [{ user := "A", start_at := 0, end_at := 100 }]
        [{ user := "B", start_at := 10, end_at := 20 },
          { user := "C", start_at := 30, end_at := 40 }] :=
  ⟨⟨by decide, by decide, by decide⟩,
    @claim7_order_insensitive
      [{ user := "A", start_at := 0, end_at := 100 }]
      [{ user := "B", start_at := 10, end_at := 20 },
        { user := "C", start_at := 30, end_at := 40 }]
      [{ user := "C", start_at := 30, end_at := 40 },
        { user := "B", start_at := 10, end_at := 20 }]
      (by decide) (by decide) (by decide)⟩

/-- Witness for C8: truncating a sorted two-shift schedule to a window that
cuts both shifts. -/
theorem claim8_witness :
    List.Pairwise (fun a b : Shift => a.start_at ≤ b.start_at)
      [({ user := "A", start_at := 0, end_at := 10 } : Shift),
        { user := "B", start_at := 10, end_at := 20 }] ∧
    (truncateAndFilterSchedule
        [{ user := "A", start_at := 0, end_at := 10 },
          { user := "B", start_at := 10, end_at := 20 }] 5 15 =
      (truncateAndFilterMs
        [{ user := "A", start_at := 0, end_at := 10 },
          { user := "B", start_at := 10, end_at := 20 }] 5 15).map outShiftOf ∧
    (∀ s : Shift, clipShift 5 15 s =
      if (s.start_at < 15 ∧ s.end_at > 5) ∧ max s.start_at 5 < min s.end_at 15 then
        some { user := s.user, start_at := max s.start_at 5, end_at := min s.end_at 15 }
      else none) ∧
    (∀ x ∈ truncateAndFilterMs
        [{ user := "A", start_at := 0, end_at := 10 },
          { user := "B", start_at := 10, end_at := 20 }] 5 15,
      (5 : Int) ≤ x.start_at ∧ x.start_at < x.end_at ∧ x.end_at ≤ 15) ∧
    List.Pairwise (fun a b : Shift => a.start_at ≤ b.start_at)
      (truncateAndFilterMs
        [{ user := "A", start_at := 0, end_at := 10 },
          { user := "B", start_at := 10, end_at := 20 }] 5 15) ∧
    (∀ x ∈ truncateAndFilterMs
        [{ user := "A", start_at := 0, end_at := 10 },
          { user := "B", start_at := 10, end_at := 20 }] 5 15,
      isoShape (dateIso x.start_at) = true ∧ isoShape (dateIso x.end_at) = true) ∧
    (∀ ms : Int, dateIso ms = dateIso (ms.fdiv 1000 * 1000))) :=
  ⟨by decide, claim8_truncation_correctness (by decide)⟩

/-- Witness for C9: an override entirely after the one-day window leaves the
output unchanged and does not appear in it. -/
theorem claim9_witness :
    ((⟨["A"], 0, 1⟩ : ScheduleConfig).users ≠ [] ∧
      (0 : Int) < (⟨["A"], 0, 1⟩ : ScheduleConfig).handover_interval_days ∧
      (0 : Int) < (86400000 : Int) ∧
      (90000000 : Int) < (95000000 : Int) ∧
      ((95000000 : Int) ≤ 0 ∨ (86400000 : Int) ≤ 90000000) ∧
      (∀ x ∈ ([] : List Shift), x.start_at ≤ x.end_at) ∧
      List.Pairwise (fun a b => ¬ overlaps a b) ([] : List Shift) ∧
      makeScheduleMs ⟨["A"], 0, 1⟩
          [{ user := "C", start_at := 90000000, end_at := 95000000 }] 0 86400000 =
        Except.ok [{ user := "A", start_at := 0, end_at := 86400000 }] ∧
      makeScheduleMs ⟨["A"], 0, 1⟩ [] 0 86400000 =
        Except.ok [{ user := "A", start_at := 0, end_at := 86400000 }]) ∧
    ((∀ t : Int, (0 : Int) ≤ t → t < 86400000 →
      (usersAt [{ user := "A", start_at := 0, end_at := 86400000 }] t).Perm
        (usersAt [{ user := "A", start_at := 0, end_at := 86400000 }] t)) ∧
    (∀ x ∈ [({ user := "A", start_at := 0, end_at := 86400000 } : Shift)],
      ¬((90000000 : Int) ≤ x.start_at ∧ x.end_at ≤ 95000000))) := by
  have hb : generateBaseSchedule ⟨["A"], 0, 1⟩ 0 86400000 =
      Except.ok [{ user := "A", start_at := 0, end_at := 86400000 }] := by
    rw [generateBaseSchedule_eval ⟨["A"], 0, 1⟩ 0 86400000 2 (by decide) (by decide)]
    rfl
  have hov := applyOverrides_singleton_eval
    [({ user := "A", start_at := 0, end_at := 86400000 } : Shift)]
    { user := "C", start_at := 90000000, end_at := 95000000 } (by decide)
  have h1 : makeScheduleMs ⟨["A"], 0, 1⟩
      [{ user := "C", start_at := 90000000, end_at := 95000000 }] 0 86400000 =
      Except.ok [{ user := "A", start_at := 0, end_at := 86400000 }] := by
    simp only [makeScheduleMs, hb, hov]
    rfl
  have h2 : makeScheduleMs ⟨["A"], 0, 1⟩ [] 0 86400000 =
      Except.ok [{ user := "A", start_at := 0, end_at := 86400000 }] := by
    simp only [makeScheduleMs, hb, applyOverrides_nil_eval]
    rfl
  exact ⟨⟨by decide, by decide, by decide, by decide, by decide, by decide, by decide, h1, h2⟩,
    claim9_outside_override (by decide) (by decide) (by decide) (by decide) (by decide)
      (by decide) (by decide) h1 h2⟩

/-- Witness for C10 (amended): a zero-duration override splits the one base
shift but changes no assignment, and only positive-duration entries
survive. -/
theorem claim10_witness :
    ((⟨["A"], 0, 1⟩ : ScheduleConfig).users ≠ [] ∧
      (0 : Int) < (⟨["A"], 0, 1⟩ : ScheduleConfig).handover_interval_days ∧
      (0 : Int) < (86400000 : Int) ∧
      (3600000 : Int) = (3600000 : Int) ∧
      (∀ x ∈ ([] : List Shift), x.start_at ≤ x.end_at) ∧
      List.Pairwise (fun a b => ¬ overlaps a b) ([] : List Shift) ∧
      makeScheduleMs ⟨["A"], 0, 1⟩
          [{ user := "C", start_at := 3600000, end_at := 3600000 }] 0 86400000 =
        Except.ok [{ user := "A", start_at := 0, end_at := 3600000 },
          { user := "A", start_at := 3600000, end_at := 86400000 }] ∧
      makeScheduleMs ⟨["A"], 0, 1⟩ [] 0 86400000 =
        Except.ok [{ user := "A", start_at := 0, end_at := 86400000 }]) ∧
    ((∀ t : Int, (0 : Int) ≤ t → t < 86400000 →
      (usersAt [({ user := "A", start_at := 0, end_at := 3600000 } : Shift),
        { user := "A", start_at := 3600000, end_at := 86400000 }] t).Perm
        (usersAt [{ user := "A", start_at := 0, end_at := 86400000 }] t)) ∧
    (∀ x ∈ [({ user := "A", start_at := 0, end_at := 3600000 } : Shift),
        { user := "A", start_at := 3600000, end_at := 86400000 }],
      x.start_at < x.end_at) ∧
    (∀ x ∈ [({ user := "A", start_at := 0, end_at := 86400000 } : Shift)],
      x.start_at < x.end_at)) := by
  have hb : generateBaseSchedule ⟨["A"], 0, 1⟩ 0 86400000 =
      Except.ok [{ user := "A", start_at := 0, end_at := 86400000 }] := by
    rw [generateBaseSchedule_eval ⟨["A"], 0, 1⟩ 0 86400000 2 (by decide) (by decide)]
    rfl
  have hov := applyOverrides_singleton_eval
    [({ user := "A", start_at := 0, end_at := 86400000 } : Shift)]
    { user := "C", start_at := 3600000, end_at := 3600000 } (by decide)
  have h1 : makeScheduleMs ⟨["A"], 0, 1⟩
      [{ user := "C", start_at := 3600000, end_at := 3600000 }] 0 86400000 =
      Except.ok [{ user := "A", start_at := 0, end_at := 3600000 },
        { user := "A", start_at := 3600000, end_at := 86400000 }] := by
    simp only [makeScheduleMs, hb, hov]
    rfl
  have h2 : makeScheduleMs ⟨["A"], 0, 1⟩ [] 0 86400000 =
      Except.ok [{ user := "A", start_at := 0, end_at := 86400000 }] := by
    simp only [makeScheduleMs, hb, applyOverrides_nil_eval]
    rfl
  exact ⟨⟨by decide, by decide, by decide, rfl, by decide, by decide, h1, h2⟩,
    claim10_zero_override_pointwise (by decide) (by decide) (by decide) (by decide)
      (by decide) (by decide) h1 h2⟩

end OnCall
